import Mathlib

/-!
Verification development for the vexml MusicXML rendering engine.

The definitions below are shallow embeddings of the TypeScript sources:
JavaScript Map objects become insertion-ordered association lists, class
methods become functions over explicit state records, and numeric widths
and beat positions become exact rationals.
-/

namespace Vexml

/-- First-match lookup in an association list; mirrors JavaScript Map.get
(returns undefined, i.e. none, when the key is absent). -/
def mapGet {α β : Type} [DecidableEq α] : List (α × β) → α → Option β
  | [], _ => none
  | (k, v) :: rest, k' => if k' = k then some v else mapGet rest k'

/-- JavaScript Map.set: replace the first binding of the key in place,
preserving insertion order, or append a new binding at the end. -/
def mapSet {α β : Type} [DecidableEq α] : List (α × β) → α → β → List (α × β)
  | [], k, v => [(k, v)]
  | (k0, v0) :: rest, k, v => if k = k0 then (k0, v) :: rest else (k0, v0) :: mapSet rest k v

/-- JavaScript Map.delete: remove the binding of the key, if present. -/
def mapDelete {α β : Type} [DecidableEq α] : List (α × β) → α → List (α × β)
  | [], _ => []
  | (k0, v0) :: rest, k => if k = k0 then rest else (k0, v0) :: mapDelete rest k

/-- The insertion-ordered key list of a JavaScript Map (Map.keys). -/
def mapKeys {α β : Type} (m : List (α × β)) : List α := m.map Prod.fst

theorem mapGet_mapSet_self {α β : Type} [DecidableEq α] (m : List (α × β)) (k : α) (v : β) :
    mapGet (mapSet m k v) k = some v := by
  induction m with
  | nil => simp [mapSet, mapGet]
  | cons hd tl ih =>
    obtain ⟨k0, v0⟩ := hd
    by_cases h : k = k0
    · simp [mapSet, mapGet, h]
    · simp [mapSet, mapGet, h, ih]

theorem mapGet_mapSet_ne {α β : Type} [DecidableEq α] (m : List (α × β)) (k k' : α) (v : β)
    (h : k' ≠ k) : mapGet (mapSet m k v) k' = mapGet m k' := by
  induction m with
  | nil => simp [mapSet, mapGet, h]
  | cons hd tl ih =>
    obtain ⟨k0, v0⟩ := hd
    by_cases hk : k = k0
    · subst hk
      simp [mapSet, mapGet, h]
    · by_cases hk' : k' = k0
      · simp [mapSet, mapGet, hk, hk']
      · simp [mapSet, mapGet, hk, hk', ih]

theorem mapKeys_nil {α β : Type} : mapKeys ([] : List (α × β)) = [] := rfl

theorem mapKeys_cons {α β : Type} (k0 : α) (v0 : β) (tl : List (α × β)) :
    mapKeys ((k0, v0) :: tl) = k0 :: mapKeys tl := rfl

theorem mapGet_eq_none_iff {α β : Type} [DecidableEq α] (m : List (α × β)) (k : α) :
    mapGet m k = none ↔ k ∉ mapKeys m := by
  induction m with
  | nil => simp [mapGet, mapKeys_nil]
  | cons hd tl ih =>
    obtain ⟨k0, v0⟩ := hd
    by_cases h : k = k0
    · simp [mapGet, mapKeys_cons, h]
    · simp [mapGet, mapKeys_cons, h, ih]

theorem mapKeys_mapSet_of_mem {α β : Type} [DecidableEq α] (m : List (α × β)) (k : α) (v : β)
    (h : k ∈ mapKeys m) : mapKeys (mapSet m k v) = mapKeys m := by
  induction m with
  | nil => simp [mapKeys_nil] at h
  | cons hd tl ih =>
    obtain ⟨k0, v0⟩ := hd
    by_cases hk : k = k0
    · simp [mapSet, mapKeys_cons, hk]
    · have hmem : k ∈ mapKeys tl := by
        rw [mapKeys_cons] at h
        rcases List.mem_cons.mp h with h1 | h1
        · exact absurd h1 hk
        · exact h1
      simp only [mapSet, if_neg hk, mapKeys_cons]
      rw [ih hmem]

theorem mapKeys_mapSet_of_not_mem {α β : Type} [DecidableEq α] (m : List (α × β)) (k : α) (v : β)
    (h : k ∉ mapKeys m) : mapSet m k v = m ++ [(k, v)] := by
  induction m with
  | nil => simp [mapSet]
  | cons hd tl ih =>
    obtain ⟨k0, v0⟩ := hd
    have hk : k ≠ k0 := by
      intro hc
      rw [mapKeys_cons] at h
      exact h (hc ▸ List.mem_cons_self k0 (mapKeys tl))
    have htl : k ∉ mapKeys tl := by
      intro hc
      rw [mapKeys_cons] at h
      exact h (List.mem_cons_of_mem k0 hc)
    simp [mapSet, hk, ih htl]

/-! ### Key signatures (src/parsing/musicxml/key.ts) -/

/-- Embedding of the parsing Key class: partId, staveNumber, fifths, an
optional previous key, and a mode. -/
inductive Key where
  | mk (partId : String) (staveNumber : Nat) (fifths : Int) (previousKey : Option Key) (mode : String)

def Key.getPartId : Key → String
  | .mk p _ _ _ _ => p

def Key.getStaveNumber : Key → Nat
  | .mk _ n _ _ _ => n

def Key.getFifths : Key → Int
  | .mk _ _ f _ _ => f

def Key.getPreviousKey : Key → Option Key
  | .mk _ _ _ prev _ => prev

def Key.getMode : Key → String
  | .mk _ _ _ _ m => m

/-- Key.arePreviousKeySignaturesEquivalent: false when either side's
previous key is null, otherwise compares fifths and mode of the two
previous keys. -/
def Key.arePreviousKeySignaturesEquivalent (k : Key) (previousKey : Option Key) : Bool :=
  match k.getPreviousKey, previousKey with
  | none, _ => false
  | some _, none => false
  | some p, some q => (if p.getFifths = q.getFifths then true else false)
      && (if p.getMode = q.getMode then true else false)

/-- Key.isEquivalent: same fifths, same mode, and equivalent previous keys. -/
def Key.isEquivalent (k other : Key) : Bool :=
  (if k.getFifths = other.getFifths then true else false)
    && (if k.getMode = other.getMode then true else false)
    && k.arePreviousKeySignaturesEquivalent other.getPreviousKey

/-- Key.isEqual: same partId and staveNumber, and isEquivalent. -/
def Key.isEqual (k other : Key) : Bool :=
  (if k.getPartId = other.getPartId then true else false)
    && (if k.getStaveNumber = other.getStaveNumber then true else false)
    && k.isEquivalent other

/-! ### Voice parsing under a multi-rest (unnamed/part_006, Voice.parse) -/

/-- A raw voice event held by the parsing Voice: a note or a rest, with its
payload abstracted. -/
inductive VoiceEvent where
  | note (payload : String)
  | rest (payload : String)
deriving DecidableEq

/-- A parsed voice entry of the data model. The aggregate whole rest is the
entry produced by Rest.whole(time).parse for a stave under a multi-rest. -/
inductive DataVoiceEntry where
  | wholeRest
  | noteEntry (payload : String)
  | restEntry (payload : String)
deriving DecidableEq

/-- The data.Voice record produced by Voice.parse. -/
structure DataVoice where
  entries : List DataVoiceEntry
  beams : List Nat
deriving DecidableEq

/-- Voice.parseEntries: one parsed entry per event, in order. -/
def parseVoiceEntries (events : List VoiceEvent) : List DataVoiceEntry :=
  events.map fun e =>
    match e with
    | .note p => .noteEntry p
    | .rest p => .restEntry p

/-- Voice.parse: when the voice's multi-rest count is positive, a single
aggregate whole rest is emitted; otherwise the per-event entries. -/
def voiceParse (multiRestCount : Nat) (events : List VoiceEvent) : DataVoice :=
  if 0 < multiRestCount then { entries := [.wholeRest], beams := [] }
  else { entries := parseVoiceEntries events, beams := [] }

/-! ### ScoreContext (src/parsing/musicxml/contexts.ts)

Ids are produced by an IdProvider. Modelled from the spec: the IdProvider
(file idprovider.ts, absent from the sources) is described as a
process-wide monotonically increasing id source shared by the whole
context chain; it is modelled as a natural-number counter. -/

structure ScoreCtx where
  nextIdVal : Nat
  multiRestCounts : List (String × List (Option Nat × Nat))
  curves : List (Nat × String × String)
  curveIds : List (Option Nat × Nat)
  wedges : List (Nat × String × String)
  wedgeIds : List (String × List (Nat × Nat))
  pedals : List (Nat × String)
  pedalIds : List (String × Nat)
  nextPedalMarkTypes : List (Nat × String)
deriving DecidableEq

/-- ScoreContext.nextId: hand out the current id and advance the provider. -/
def nextId (s : ScoreCtx) : Nat × ScoreCtx :=
  (s.nextIdVal, { s with nextIdVal := s.nextIdVal + 1 })

/-- Lookup inside one part's multi-rest map, following the nullish chain
get(null) ?? get(staveNumber) ?? 0: a present null binding wins even when
its value is zero. -/
def multiRestCountIn (m : List (Option Nat × Nat)) (staveNumber : Option Nat) : Nat :=
  match mapGet m none with
  | some v => v
  | none => (mapGet m staveNumber).getD 0

/-- ScoreContext.getMultiRestCount. -/
def getMultiRestCount (partId : String) (staveNumber : Option Nat) (s : ScoreCtx) : Nat :=
  match mapGet s.multiRestCounts partId with
  | none => 0
  | some m => multiRestCountIn m staveNumber

/-- ScoreContext.incrementMultiRestCount: ensure the part's inner map
exists, then set staveNumber to count plus the current count. -/
def incrementMultiRestCount (partId : String) (staveNumber : Option Nat) (count : Nat)
    (s : ScoreCtx) : ScoreCtx :=
  let s1 := if (mapGet s.multiRestCounts partId).isSome then s
            else { s with multiRestCounts := mapSet s.multiRestCounts partId [] }
  let inner := (mapGet s1.multiRestCounts partId).getD []
  let newInner := mapSet inner staveNumber (count + getMultiRestCount partId staveNumber s1)
  { s1 with multiRestCounts := mapSet s1.multiRestCounts partId newInner }

/-- One step of decrementMultiRestCounts for one stave-number key of a
part's inner map: re-read the count through the nullish chain and, when
positive, decrement that key in place. -/
def decrementPartStep (m : List (Option Nat × Nat)) (k : Option Nat) : List (Option Nat × Nat) :=
  if 0 < multiRestCountIn m k then mapSet m k (multiRestCountIn m k - 1) else m

/-- Decrement pass over one part's inner map: iterate its key snapshot in
insertion order, mutating as it goes. -/
def decrementPart (m : List (Option Nat × Nat)) : List (Option Nat × Nat) :=
  (mapKeys m).foldl decrementPartStep m

/-- ScoreContext.decrementMultiRestCounts. Each part's inner map is read
and written independently of the others, so the pass acts per part. -/
def decrementMultiRestCounts (s : ScoreCtx) : ScoreCtx :=
  { s with multiRestCounts := s.multiRestCounts.map (fun pm => (pm.1, decrementPart pm.2)) }

/-- ScoreContext.beginCurve: mint an id, record the curve, and bind the
curve number (null allowed) to the id, overwriting any previous binding. -/
def beginCurve (curveNumber : Option Nat) (placement opening : String) (s : ScoreCtx) :
    Nat × ScoreCtx :=
  let p := nextId s
  (p.1, { p.2 with curves := p.2.curves ++ [(p.1, placement, opening)],
                   curveIds := mapSet p.2.curveIds curveNumber p.1 })

/-- ScoreContext.continueCurve: the id currently bound to the number, or
null. -/
def continueCurve (curveNumber : Option Nat) (s : ScoreCtx) : Option Nat :=
  mapGet s.curveIds curveNumber

/-- ScoreContext.beginWedge: mint an id, record the wedge, and bind
(partId, staveNumber) to the id. -/
def beginWedge (partId : String) (staveNumber : Nat) (wedgeType placement : String)
    (s : ScoreCtx) : Nat × ScoreCtx :=
  let p := nextId s
  let s2 := if (mapGet p.2.wedgeIds partId).isSome then p.2
            else { p.2 with wedgeIds := mapSet p.2.wedgeIds partId [] }
  let inner := (mapGet s2.wedgeIds partId).getD []
  (p.1, { s2 with wedges := s2.wedges ++ [(p.1, wedgeType, placement)],
                  wedgeIds := mapSet s2.wedgeIds partId (mapSet inner staveNumber p.1) })

/-- ScoreContext.continueOpenWedge: the id bound to (partId, staveNumber),
or null. -/
def continueOpenWedge (partId : String) (staveNumber : Nat) (s : ScoreCtx) : Option Nat :=
  (mapGet s.wedgeIds partId).bind fun inner => mapGet inner staveNumber

/-- ScoreContext.closeWedge: drop the stave binding from the part's wedge
map, if any. -/
def closeWedge (partId : String) (staveNumber : Nat) (s : ScoreCtx) : ScoreCtx :=
  match mapGet s.wedgeIds partId with
  | none => s
  | some inner => { s with wedgeIds := mapSet s.wedgeIds partId (mapDelete inner staveNumber) }

/-- ScoreContext.beginPedal. -/
def beginPedal (partId : String) (pedalType : String) (s : ScoreCtx) : Nat × ScoreCtx :=
  let p := nextId s
  (p.1, { p.2 with pedals := p.2.pedals ++ [(p.1, pedalType)],
                   pedalIds := mapSet p.2.pedalIds partId p.1 })

/-- ScoreContext.continueOpenPedal: returns the pedal mark for the open
pedal, consuming the primed next mark type. -/
def continueOpenPedal (partId : String) (s : ScoreCtx) : Option (String × Nat) × ScoreCtx :=
  match mapGet s.pedalIds partId with
  | none => (none, s)
  | some pedalId =>
    let t := (mapGet s.nextPedalMarkTypes pedalId).getD "default"
    (some (t, pedalId),
     { s with nextPedalMarkTypes := mapSet s.nextPedalMarkTypes pedalId "default" })

/-- ScoreContext.primeNextPedalMark. -/
def primeNextPedalMark (partId : String) (t : String) (s : ScoreCtx) : ScoreCtx :=
  match mapGet s.pedalIds partId with
  | none => s
  | some pedalId => { s with nextPedalMarkTypes := mapSet s.nextPedalMarkTypes pedalId t }

/-- ScoreContext.closePedal. -/
def closePedal (partId : String) (s : ScoreCtx) : ScoreCtx :=
  { s with pedalIds := mapDelete s.pedalIds partId }

/-- The state-mutating operations of the ScoreContext, used to quantify
over arbitrary interleaved activity between two curve events. -/
inductive ScoreOp where
  | incMultiRest (partId : String) (staveNumber : Option Nat) (count : Nat)
  | decMultiRests
  | beginCurveOp (curveNumber : Option Nat) (placement opening : String)
  | beginWedgeOp (partId : String) (staveNumber : Nat) (wedgeType placement : String)
  | closeWedgeOp (partId : String) (staveNumber : Nat)
  | beginPedalOp (partId : String) (pedalType : String)
  | continueOpenPedalOp (partId : String)
  | primeNextPedalMarkOp (partId : String) (t : String)
  | closePedalOp (partId : String)
deriving DecidableEq

def applyOp (o : ScoreOp) (s : ScoreCtx) : ScoreCtx :=
  match o with
  | .incMultiRest p stv c => incrementMultiRestCount p stv c s
  | .decMultiRests => decrementMultiRestCounts s
  | .beginCurveOp n pl opn => (beginCurve n pl opn s).2
  | .beginWedgeOp p stv wt pl => (beginWedge p stv wt pl s).2
  | .closeWedgeOp p stv => closeWedge p stv s
  | .beginPedalOp p pt => (beginPedal p pt s).2
  | .continueOpenPedalOp p => (continueOpenPedal p s).2
  | .primeNextPedalMarkOp p t => primeNextPedalMark p t s
  | .closePedalOp p => closePedal p s

def applyOps (ops : List ScoreOp) (s : ScoreCtx) : ScoreCtx :=
  ops.foldl (fun s o => applyOp o s) s

/-! ### VoiceContext tuplets (src/parsing/musicxml/contexts.ts) -/

/-- The VoiceContext registries relevant to tuplets and beams. An open
tuplet stores its id, showNumber flag, and placement. -/
structure VoiceCtx where
  beams : List Nat
  openTuplets : List (Nat × (Nat × Bool × String))
  closedTuplets : List (Nat × Bool × String)
deriving DecidableEq

/-- VoiceContext.closeTuplet: null and untouched registries when no tuplet
with that number is open; otherwise move it to the closed list. -/
def closeTuplet (number : Nat) (v : VoiceCtx) : Option Nat × VoiceCtx :=
  match mapGet v.openTuplets number with
  | none => (none, v)
  | some t =>
    (some t.1, { v with closedTuplets := v.closedTuplets ++ [t],
                        openTuplets := mapDelete v.openTuplets number })

/-! ### Line breaking (tests/integration/lilypond.test.ts, Vexml.partitionToLines) -/

/-- A system as seen by the line breaker: its justify width and the width
of its beginning modifiers, both from the engraving backend. -/
structure LPSystem where
  justifyWidth : ℚ
  modifiersWidth : ℚ
deriving DecidableEq

def JUSTIFY_PADDING : ℚ := 100

/-- The line breaker's running state: finished lines, the current line
(each member paired with the width assigned by system.setWidth), and the
remaining width on the current line. -/
structure LPState where
  closedLines : List (List (LPSystem × ℚ))
  currentLine : List (LPSystem × ℚ)
  remainingWidth : ℚ
deriving DecidableEq

/-- One iteration of the partitionToLines loop, exactly as written: the
modifier width is part of requiredWidth when the line is empty, and on the
not-fit branch the modifier width is added to requiredWidth again. -/
def partitionStep (width : ℚ) (st : LPState) (sys : LPSystem) : LPState :=
  let required0 := sys.justifyWidth + JUSTIFY_PADDING
  let required := if st.currentLine.isEmpty then required0 + sys.modifiersWidth else required0
  if required ≤ st.remainingWidth then
    { st with currentLine := st.currentLine ++ [(sys, required)],
              remainingWidth := st.remainingWidth - required }
  else
    let required2 := required + sys.modifiersWidth
    { closedLines := st.closedLines ++ [st.currentLine],
      currentLine := [(sys, required2)],
      remainingWidth := width - required2 }

/-- Vexml.partitionToLines: fold the systems through the loop and drop
empty lines. -/
def partitionToLines (width : ℚ) (systems : List LPSystem) : List (List (LPSystem × ℚ)) :=
  let final := systems.foldl (partitionStep width)
    { closedLines := [], currentLine := [], remainingWidth := width }
  (final.closedLines ++ [final.currentLine]).filter (fun l => !l.isEmpty)

/-- Line breaking as the claim words it: when a system does not fit, its
requiredWidth is recomputed from scratch with the modifier width included
exactly once. -/
def linesFromClaim (width : ℚ) (cur : List (LPSystem × ℚ)) (rem : ℚ) :
    List LPSystem → List (List (LPSystem × ℚ))
  | [] => if cur.isEmpty then [] else [cur]
  | sys :: rest =>
    let required := sys.justifyWidth + JUSTIFY_PADDING
      + (if cur.isEmpty then sys.modifiersWidth else 0)
    if required ≤ rem then linesFromClaim width (cur ++ [(sys, required)]) (rem - required) rest
    else
      let required2 := sys.justifyWidth + JUSTIFY_PADDING + sys.modifiersWidth
      (if cur.isEmpty then [] else [cur])
        ++ linesFromClaim width [(sys, required2)] (width - required2) rest

def partitionToLinesClaim (width : ℚ) (systems : List LPSystem) : List (List (LPSystem × ℚ)) :=
  linesFromClaim width [] width systems

/-- Line breaking as amended: when a system does not fit, the modifier
width is added to the requiredWidth already computed, so it is counted
twice when the current line was empty. -/
def linesAmended (width : ℚ) (cur : List (LPSystem × ℚ)) (rem : ℚ) :
    List LPSystem → List (List (LPSystem × ℚ))
  | [] => if cur.isEmpty then [] else [cur]
  | sys :: rest =>
    let required := sys.justifyWidth + JUSTIFY_PADDING
      + (if cur.isEmpty then sys.modifiersWidth else 0)
    if required ≤ rem then linesAmended width (cur ++ [(sys, required)]) (rem - required) rest
    else
      let required2 := required + sys.modifiersWidth
      (if cur.isEmpty then [] else [cur])
        ++ linesAmended width [(sys, required2)] (width - required2) rest

def partitionToLinesAmended (width : ℚ) (systems : List LPSystem) : List (List (LPSystem × ℚ)) :=
  linesAmended width [] width systems

/-! ### Justification (unnamed/part_002, MeasureFragment.render and
getSystemFitWidth) -/

/-- MeasureFragment.getSystemFitWidth: stretch the fragment's minimum
width by its proportional share of the system's width deficit. -/
def getSystemFitWidth (minRequiredWidth targetSystemWidth minRequiredSystemWidth : ℚ) : ℚ :=
  let widthDeficit := targetSystemWidth - minRequiredSystemWidth
  let widthFraction := minRequiredWidth / minRequiredSystemWidth
  let widthDelta := widthDeficit * widthFraction
  minRequiredWidth + widthDelta

/-- The width chosen by MeasureFragment.render: the natural minimum width
on the last system, the stretched fit width otherwise. -/
def fragmentRenderWidth (isLastSystem : Bool)
    (minRequiredWidth targetSystemWidth minRequiredSystemWidth : ℚ) : ℚ :=
  if isLastSystem then minRequiredWidth
  else getSystemFitWidth minRequiredWidth targetSystemWidth minRequiredSystemWidth

/-- The rendered widths of one line's members, where the line's minimum
required width is the sum of its members' minimum widths. -/
def lineRenderWidths (targetWidth : ℚ) (isLastSystem : Bool) (line : List ℚ) : List ℚ :=
  line.map (fun m => fragmentRenderWidth isLastSystem m targetWidth line.sum)

/-- Modelled from the spec: the system-formation pass of the rendering
engine (its Score seed code is absent from the sources) accumulates
measures into the current line while the next minimum required width fits
the remaining width, otherwise starts a new line with that measure as its
first member; empty lines are dropped. -/
def linePartitionGo (targetWidth : ℚ) (cur : List ℚ) (rem : ℚ) : List ℚ → List (List ℚ)
  | [] => [cur]
  | w :: rest =>
    if w ≤ rem then linePartitionGo targetWidth (cur ++ [w]) (rem - w) rest
    else cur :: linePartitionGo targetWidth [w] (targetWidth - w) rest

/-- Modelled from the spec: partition minimum widths into lines greedily
and drop empty lines. -/
def partitionMinWidths (targetWidth : ℚ) (ws : List ℚ) : List (List ℚ) :=
  (linePartitionGo targetWidth [] targetWidth ws).filter (fun l => !l.isEmpty)

/-- Full layout of the rendered widths: every line but the last is
stretched, the last keeps its natural minimum widths. -/
def layoutLineWidths (targetWidth : ℚ) (ws : List ℚ) : List (List ℚ) :=
  let lines := partitionMinWidths targetWidth ws
  lines.enum.map (fun il => lineRenderWidths targetWidth (il.1 + 1 = lines.length) il.2)

/-! ### Voice gap reconciliation (unnamed/part_003, Voice.renderEntries) -/

/-- A stored voice entry as the renderer reads it: an explicit measure
beat and duration, both exact fractions. -/
structure FracEntry where
  measureBeat : ℚ
  duration : ℚ
deriving DecidableEq

/-- The DURATION_TYPE_VALUES table of Voice.renderVexflowGhostNote: each
standard duration type paired with its value in whole-note units, largest
first (breve down to 1/1024). -/
def DURATION_TYPE_VALUES : List (String × ℚ) :=
  [("1/2", 2), ("1", 1), ("2", 1/2), ("4", 1/4), ("8", 1/8), ("16", 1/16),
   ("32", 1/32), ("64", 1/64), ("128", 1/128), ("256", 1/256), ("512", 1/512),
   ("1024", 1/1024)]

/-- The scan of renderVexflowGhostNote: the first (hence largest) standard
duration value that is at most the requested beat duration. -/
def firstDurationLE (x : ℚ) : List (String × ℚ) → Option ℚ
  | [] => none
  | (_, v) :: rest => if v ≤ x then some v else firstDurationLE x rest

/-- Voice.renderVexflowGhostNote: the ghost note's duration value in
whole-note units — the largest standard duration value at most the
requested duration, with the breve (value 2, the loop's initial
closestDurationType) as fallback when none fits. -/
def ghostDurationValue (beatDuration : ℚ) : ℚ :=
  (firstDurationLE beatDuration DURATION_TYPE_VALUES).getD 2

/-- The tick span, in quarter-note beats, of the ghost synthesized for a
gap of the given size: the gap is divided by 4 into whole-note units,
quantized by renderVexflowGhostNote, and the chosen value spans four times
its whole-note size in beats. -/
def ghostBeats (gap : ℚ) : ℚ :=
  4 * ghostDurationValue (gap / 4)

/-- A tickable appended to the vexflow voice: either a synthesized ghost
note starting at the running cursor with its quantized duration, or the
render of a real entry at its measure beat. -/
inductive TickableRender where
  | ghostNote (measureBeat dur : ℚ)
  | entryRender (measureBeat duration : ℚ)
deriving DecidableEq

def TickableRender.pos : TickableRender → ℚ
  | .ghostNote b _ => b
  | .entryRender b _ => b

def TickableRender.dur : TickableRender → ℚ
  | .ghostNote _ g => g
  | .entryRender _ d => d

/-- Voice.renderEntries: walk the entries with a running measure-beat
cursor; when the cursor is strictly less than the next entry's measure
beat, add a ghost note whose tick span is the gap quantized by
renderVexflowGhostNote, then add the entry and move the cursor to
measureBeat + duration. -/
def renderEntriesGo (cursor : ℚ) : List FracEntry → List TickableRender
  | [] => []
  | e :: rest =>
    (if cursor < e.measureBeat
      then [TickableRender.ghostNote cursor (ghostBeats (e.measureBeat - cursor))] else [])
      ++ TickableRender.entryRender e.measureBeat e.duration
      :: renderEntriesGo (e.measureBeat + e.duration) rest

/-- Input well-formedness from the given cursor: each entry starts no
earlier than the previous one ends and has nonnegative duration. -/
def wellFormedFrom (cursor : ℚ) : List FracEntry → Bool
  | [] => true
  | e :: rest =>
    if cursor ≤ e.measureBeat ∧ 0 ≤ e.duration
      then wellFormedFrom (e.measureBeat + e.duration) rest else false

/-- Every gap arising during the walk quantizes exactly: whenever the
cursor is strictly before the next entry, the quantized ghost span equals
the gap (the gap is four times a standard duration value). -/
def gapsExactFrom (cursor : ℚ) : List FracEntry → Bool
  | [] => true
  | e :: rest =>
    if cursor < e.measureBeat then
      (if ghostBeats (e.measureBeat - cursor) = e.measureBeat - cursor
        then gapsExactFrom (e.measureBeat + e.duration) rest else false)
    else gapsExactFrom (e.measureBeat + e.duration) rest

/-- The no-gaps no-overlaps chain: the first tickable sits exactly at the
cursor and each later one exactly where its predecessor ends. -/
def chainedFromB (cursor : ℚ) : List TickableRender → Bool
  | [] => true
  | t :: rest => if t.pos = cursor then chainedFromB (cursor + t.dur) rest else false

/-- Tickables ordered by nondecreasing position. -/
def nondecB : List TickableRender → Bool
  | [] => true
  | [_] => true
  | a :: b :: rest => if a.pos ≤ b.pos then nondecB (b :: rest) else false

/-- All durations in a tickable list are nonnegative. -/
def dursNonnegB : List TickableRender → Bool
  | [] => true
  | t :: rest => if 0 ≤ t.dur then dursNonnegB rest else false

/-! ### Measure fragmenting (unnamed/part_004, Measure.getFragments) -/

/-- A stave signature: the set of modifiers it changed, the measure index
and measure entry index where it lands, and the next signature in the
chain. -/
inductive StaveSig where
  | mk (changed : List String) (measureIndex : Nat) (measureEntryIndex : Nat)
      (next : Option StaveSig)

def StaveSig.changed : StaveSig → List String
  | .mk c _ _ _ => c

def StaveSig.measureIndex : StaveSig → Nat
  | .mk _ i _ _ => i

def StaveSig.measureEntryIndex : StaveSig → Nat
  | .mk _ _ i _ => i

def StaveSig.next : StaveSig → Option StaveSig
  | .mk _ _ _ n => n

/-- A measure entry as getFragments dispatches on it: a StaveSignature, a
Direction (with whether any of its types is a supported metronome), or any
other entry (notes, barlines, ...). -/
inductive MEntry where
  | sig (s : StaveSig)
  | direction (hasSupportedMetronome : Bool)
  | other (payload : Nat)

/-- A measure fragment: its leading stave signature, its measure entries,
and its beginning and end bar styles. -/
structure Frag where
  leadingSig : StaveSig
  entries : List MEntry
  begBar : String
  endBar : String

/-- The loop state of getFragments: the running signature, the current
fragment's entries, and the fragments emitted so far. -/
def fragStep (begBar : String) (st : StaveSig × List MEntry × List Frag) (e : MEntry) :
    StaveSig × List MEntry × List Frag :=
  match st with
  | (sig, cur, frags) =>
    match e with
    | .sig s =>
      if !s.changed.isEmpty && !cur.isEmpty then
        (s, [MEntry.sig s],
         frags ++ [{ leadingSig := sig, entries := cur,
                     begBar := if frags.isEmpty then begBar else "none", endBar := "none" }])
      else
        (s, cur ++ [MEntry.sig s], frags)
    | .direction hasMet =>
      if hasMet && !cur.isEmpty then
        (sig, [MEntry.direction hasMet],
         frags ++ [{ leadingSig := sig, entries := cur,
                     begBar := if frags.isEmpty then begBar else "none", endBar := "none" }])
      else
        (sig, cur ++ [MEntry.direction hasMet], frags)
    | .other p => (sig, cur ++ [MEntry.other p], frags)

/-- The boundary test hasClefChangeAtMeasureBoundary: the running
signature's next signature changes the clef and lands at entry index 0 of
the immediately following measure. -/
def clefBoundary (measureIndex : Nat) (sig : StaveSig) : Bool :=
  match sig.next with
  | none => false
  | some nxt =>
    if "clef" ∈ nxt.changed ∧ nxt.measureIndex = measureIndex + 1
        ∧ nxt.measureEntryIndex = 0
      then true else false

/-- The last-entry step of getFragments: close the current fragment, and
when the boundary clef change fires also emit the trailing zero-content
fragment holding only the next signature and carrying the end bar style. -/
def fragFinish (measureIndex : Nat) (begBar endBar : String)
    (st : StaveSig × List MEntry × List Frag) : List Frag :=
  match st with
  | (sig, cur, frags) =>
    if clefBoundary measureIndex sig then
      match sig.next with
      | none => frags
      | some nxt =>
        frags ++ [{ leadingSig := sig, entries := cur,
                    begBar := if frags.isEmpty then begBar else "none", endBar := "none" },
                  { leadingSig := nxt, entries := [MEntry.sig nxt],
                    begBar := "none", endBar := endBar }]
    else
      frags ++ [{ leadingSig := sig, entries := cur,
                  begBar := if frags.isEmpty then begBar else "none", endBar := endBar }]

/-- The iteration of getFragments over the measure entries: per-entry
handling for every entry, then the last-entry handling after the final
one. An empty measure produces no fragments. -/
def getFragmentsGo (measureIndex : Nat) (begBar endBar : String)
    (st : StaveSig × List MEntry × List Frag) : List MEntry → List Frag
  | [] => st.2.2
  | [e] => fragFinish measureIndex begBar endBar (fragStep begBar st e)
  | e :: rest => getFragmentsGo measureIndex begBar endBar (fragStep begBar st e) rest

/-- Measure.getFragments. -/
def getFragments (measureIndex : Nat) (begBar endBar : String) (leadingSig : StaveSig)
    (entries : List MEntry) : List Frag :=
  getFragmentsGo measureIndex begBar endBar (leadingSig, [], []) entries

/-- The signature in effect after scanning the given entries: the last
signature entry, or the starting one if there is none. -/
def runningSig (sig : StaveSig) : List MEntry → StaveSig
  | [] => sig
  | .sig s :: rest => runningSig s rest
  | .direction _ :: rest => runningSig sig rest
  | .other _ :: rest => runningSig sig rest

/-- An entry that never opens a fragment boundary inside the measure: a
signature whose modifier diff is empty, an unsupported direction, or any
other entry. -/
def nonSplitting : MEntry → Bool
  | .sig s => s.changed.isEmpty
  | .direction hasMet => !hasMet
  | .other _ => true

/-- A fresh ScoreContext, as constructed at the start of a parse. -/
def emptyScoreCtx : ScoreCtx := ⟨0, [], [], [], [], [], [], [], []⟩

/-- A fresh VoiceContext. -/
def emptyVoiceCtx : VoiceCtx := ⟨[], [], []⟩

/-! ## Theorems -/

theorem arePrev_eq_false_of_left_none (k : Key) (p : Option Key) (h : k.getPreviousKey = none) :
    k.arePreviousKeySignaturesEquivalent p = false := by
  unfold Key.arePreviousKeySignaturesEquivalent
  rw [h]

theorem arePrev_eq_false_of_right_none (k : Key) :
    k.arePreviousKeySignaturesEquivalent none = false := by
  unfold Key.arePreviousKeySignaturesEquivalent
  cases k.getPreviousKey <;> rfl

theorem isEquivalent_eq_false_of_none (k other : Key)
    (h : k.getPreviousKey = none ∨ other.getPreviousKey = none) :
    k.isEquivalent other = false := by
  unfold Key.isEquivalent
  rcases h with h | h
  · rw [arePrev_eq_false_of_left_none k _ h, Bool.and_false]
  · rw [h, arePrev_eq_false_of_right_none k, Bool.and_false]

/-- C10: key equality is not reflexive for keys without a predecessor.
Whenever either side's previous key is null the previous-key comparison
returns false, so isEqual and isEquivalent return false on a key compared
with itself, and two keys with identical partId, staveNumber, fifths and
mode but null previous keys always compare unequal. -/
theorem key_equality_not_reflexive_without_previous (k other a b : Key)
    (hk : k.getPreviousKey = none) (hother : other.getPreviousKey = none)
    (hid : k.getPartId = other.getPartId) (hstv : k.getStaveNumber = other.getStaveNumber)
    (hf : k.getFifths = other.getFifths) (hm : k.getMode = other.getMode)
    (hab : a.getPreviousKey = none ∨ b.getPreviousKey = none) :
    k.isEqual k = false ∧ k.isEquivalent k = false
      ∧ k.isEqual other = false ∧ k.isEquivalent other = false
      ∧ a.arePreviousKeySignaturesEquivalent b.getPreviousKey = false := by
  have h1 : k.isEquivalent k = false := isEquivalent_eq_false_of_none k k (Or.inl hk)
  have h2 : k.isEquivalent other = false := isEquivalent_eq_false_of_none k other (Or.inl hk)
  have h3 : a.arePreviousKeySignaturesEquivalent b.getPreviousKey = false := by
    rcases hab with h | h
    · exact arePrev_eq_false_of_left_none a _ h
    · rw [h]
      exact arePrev_eq_false_of_right_none a
  refine ⟨?_, h1, ?_, h2, h3⟩
  · unfold Key.isEqual
    rw [h1, Bool.and_false]
  · unfold Key.isEqual
    rw [h2, Bool.and_false]

theorem key_equality_not_reflexive_without_previous_witness :
    (Key.mk "P1" 1 2 none "major").getPreviousKey = none
    ∧ ((Key.mk "P1" 1 2 none "major").isEqual (Key.mk "P1" 1 2 none "major") = false
      ∧ (Key.mk "P1" 1 2 none "major").isEquivalent (Key.mk "P1" 1 2 none "major") = false
      ∧ (Key.mk "P1" 1 2 none "major").isEqual (Key.mk "P1" 1 2 none "major") = false
      ∧ (Key.mk "P1" 1 2 none "major").isEquivalent (Key.mk "P1" 1 2 none "major") = false
      ∧ (Key.mk "P1" 1 2 none "major").arePreviousKeySignaturesEquivalent
          (Key.mk "P1" 1 2 none "major").getPreviousKey = false) :=
  ⟨rfl, key_equality_not_reflexive_without_previous
    (Key.mk "P1" 1 2 none "major") (Key.mk "P1" 1 2 none "major")
    (Key.mk "P1" 1 2 none "major") (Key.mk "P1" 1 2 none "major")
    rfl rfl rfl rfl rfl rfl (Or.inl rfl)⟩

/-- C8: when the multi-rest count for the stave is positive, Voice.parse
emits exactly one aggregate whole-rest entry and never consults the
voice's events, which are discarded for that measure. -/
theorem voiceParse_multirest_aggregate (c : Nat) (evs evs2 : List VoiceEvent) (h : 0 < c) :
    voiceParse c evs = { entries := [DataVoiceEntry.wholeRest], beams := [] }
      ∧ voiceParse c evs = voiceParse c evs2 := by
  constructor <;> simp [voiceParse, h]

theorem voiceParse_multirest_aggregate_witness :
    0 < 1
    ∧ (voiceParse 1 [VoiceEvent.note "C4", VoiceEvent.rest "q"]
        = { entries := [DataVoiceEntry.wholeRest], beams := [] }
      ∧ voiceParse 1 [VoiceEvent.note "C4", VoiceEvent.rest "q"] = voiceParse 1 []) :=
  ⟨Nat.one_pos,
   voiceParse_multirest_aggregate 1 [VoiceEvent.note "C4", VoiceEvent.rest "q"] [] Nat.one_pos⟩

/-- C9: continuing a spanner with no matching open spanner never raises:
continueOpenWedge returns null when no wedge is open for the part and
stave, continueCurve returns null when no curve is bound to the number,
and closeTuplet returns null and leaves the registries untouched when no
tuplet with that number is open. -/
theorem spanner_continue_without_open_is_null (s : ScoreCtx) (p : String) (stv : Nat)
    (n : Option Nat) (v : VoiceCtx) (m : Nat)
    (hw : ∀ inner, mapGet s.wedgeIds p = some inner → mapGet inner stv = none)
    (hc : mapGet s.curveIds n = none)
    (ht : mapGet v.openTuplets m = none) :
    continueOpenWedge p stv s = none ∧ continueCurve n s = none
      ∧ closeTuplet m v = (none, v) := by
  refine ⟨?_, ?_, ?_⟩
  · unfold continueOpenWedge
    cases hcase : mapGet s.wedgeIds p with
    | none => rfl
    | some inner => simp [hw inner hcase]
  · unfold continueCurve
    exact hc
  · unfold closeTuplet
    rw [ht]

theorem spanner_continue_without_open_is_null_witness :
    continueOpenWedge "P1" 1 emptyScoreCtx = none
    ∧ continueCurve (some 3) emptyScoreCtx = none
    ∧ closeTuplet 2 emptyVoiceCtx = (none, emptyVoiceCtx) :=
  spanner_continue_without_open_is_null emptyScoreCtx "P1" 1 (some 3) emptyVoiceCtx 2
    (fun inner h => by simp [emptyScoreCtx, mapGet] at h) rfl rfl

theorem filter_singleton_isEmpty {α : Type} (l : List α) :
    [l].filter (fun x => !x.isEmpty) = if l.isEmpty then ([] : List (List α)) else [l] := by
  cases l <;> simp [List.filter]

theorem partitionStep_apply (w : ℚ) (closed : List (List (LPSystem × ℚ)))
    (cur : List (LPSystem × ℚ)) (rem : ℚ) (sys : LPSystem) :
    partitionStep w ⟨closed, cur, rem⟩ sys
      = (if (if cur.isEmpty then sys.justifyWidth + JUSTIFY_PADDING + sys.modifiersWidth
              else sys.justifyWidth + JUSTIFY_PADDING) ≤ rem then
          (⟨closed, cur ++ [(sys, if cur.isEmpty then
              sys.justifyWidth + JUSTIFY_PADDING + sys.modifiersWidth
              else sys.justifyWidth + JUSTIFY_PADDING)],
            rem - (if cur.isEmpty then sys.justifyWidth + JUSTIFY_PADDING + sys.modifiersWidth
              else sys.justifyWidth + JUSTIFY_PADDING)⟩ : LPState)
        else
          (⟨closed ++ [cur], [(sys, (if cur.isEmpty then
              sys.justifyWidth + JUSTIFY_PADDING + sys.modifiersWidth
              else sys.justifyWidth + JUSTIFY_PADDING) + sys.modifiersWidth)],
            w - ((if cur.isEmpty then sys.justifyWidth + JUSTIFY_PADDING + sys.modifiersWidth
              else sys.justifyWidth + JUSTIFY_PADDING) + sys.modifiersWidth)⟩ : LPState)) := rfl

theorem partition_fold_amended (w : ℚ) (rest : List LPSystem) :
    ∀ (closed : List (List (LPSystem × ℚ))) (cur : List (LPSystem × ℚ)) (rem : ℚ),
    ((rest.foldl (partitionStep w) ⟨closed, cur, rem⟩).closedLines
        ++ [(rest.foldl (partitionStep w) ⟨closed, cur, rem⟩).currentLine]).filter
          (fun l => !l.isEmpty)
      = closed.filter (fun l => !l.isEmpty) ++ linesAmended w cur rem rest := by
  induction rest with
  | nil =>
    intro closed cur rem
    simp only [List.foldl_nil, linesAmended, List.filter_append, filter_singleton_isEmpty]
  | cons sys rest ih =>
    intro closed cur rem
    rw [List.foldl_cons, partitionStep_apply]
    unfold linesAmended
    cases cur with
    | nil =>
      simp only [List.isEmpty_nil, if_true, List.nil_append, add_zero]
      by_cases hfit : sys.justifyWidth + JUSTIFY_PADDING + sys.modifiersWidth ≤ rem
      · simp only [if_pos hfit]
        exact ih closed [(sys, sys.justifyWidth + JUSTIFY_PADDING + sys.modifiersWidth)] _
      · simp only [if_neg hfit]
        rw [ih (closed ++ [[]]) _ _]
        simp [List.filter_append]
    | cons hd tl =>
      simp only [List.isEmpty_cons, if_false, Bool.false_eq_true, add_zero]
      by_cases hfit : sys.justifyWidth + JUSTIFY_PADDING ≤ rem
      · simp only [if_pos hfit]
        exact ih closed ((hd :: tl) ++ [(sys, sys.justifyWidth + JUSTIFY_PADDING)]) _
      · simp only [if_neg hfit]
        rw [ih (closed ++ [hd :: tl]) _ _]
        simp [List.filter_append]

/-- C2 counterexample: when the very first system does not fit the empty
first line, partitionToLines adds the modifier width a second time on top
of a requiredWidth that already includes it, so the produced width differs
from the claim's recomputation with the modifier width included once. -/
theorem partitionToLines_claim_counterexample :
    (partitionToLines 50 [{ justifyWidth := 10, modifiersWidth := 5 }]).map
        (fun l => l.map Prod.snd)
      ≠ (partitionToLinesClaim 50 [{ justifyWidth := 10, modifiersWidth := 5 }]).map
        (fun l => l.map Prod.snd) := by
  have h1 : (partitionToLines 50 [{ justifyWidth := 10, modifiersWidth := 5 }]).map
      (fun l => l.map Prod.snd) = [[(120 : ℚ)]] := by
    norm_num [partitionToLines, List.foldl_cons, List.foldl_nil, partitionStep_apply,
      JUSTIFY_PADDING, List.filter]
  have h2 : (partitionToLinesClaim 50 [{ justifyWidth := 10, modifiersWidth := 5 }]).map
      (fun l => l.map Prod.snd) = [[(115 : ℚ)]] := by
    norm_num [partitionToLinesClaim, linesFromClaim, JUSTIFY_PADDING]
  rw [h1, h2]
  intro hc
  simp at hc

/-- C2 (amended): line-breaking is a greedy single pass; a system is
appended to the current line exactly when requiredWidth, which includes
the modifier width only if the line is empty, fits the remaining width;
when it does not fit, a new line starts with that system as its first
member, its requiredWidth is obtained by adding the modifier width to the
requiredWidth already computed (counting it twice when the current line
was empty, which is reachable only for the very first system), and
remainingWidth resets to targetWidth minus that requiredWidth. -/
theorem partitionToLines_amended_correct (width : ℚ) (systems : List LPSystem) :
    partitionToLines width systems = partitionToLinesAmended width systems := by
  have h := partition_fold_amended width systems [] [] width
  simpa [partitionToLines, partitionToLinesAmended] using h

/-- The pairwise no-gaps no-overlaps condition of the spec: each entry
ends exactly where the next begins. -/
def pairwiseChainB : List TickableRender → Bool
  | [] => true
  | [_] => true
  | a :: b :: rest => if a.pos + a.dur = b.pos then pairwiseChainB (b :: rest) else false

theorem gapsExact_split (c : ℚ) (e : FracEntry) (rest : List FracEntry)
    (hlt : c < e.measureBeat) (hg : gapsExactFrom c (e :: rest) = true) :
    ghostBeats (e.measureBeat - c) = e.measureBeat - c
      ∧ gapsExactFrom (e.measureBeat + e.duration) rest = true := by
  unfold gapsExactFrom at hg
  rw [if_pos hlt] at hg
  by_cases heq : ghostBeats (e.measureBeat - c) = e.measureBeat - c
  · rw [if_pos heq] at hg
    exact ⟨heq, hg⟩
  · rw [if_neg heq] at hg
    exact absurd hg (by simp)

theorem chainedFromB_renderEntries (es : List FracEntry) :
    ∀ c : ℚ, wellFormedFrom c es = true → gapsExactFrom c es = true →
      chainedFromB c (renderEntriesGo c es) = true := by
  induction es with
  | nil => intro c _ _; rfl
  | cons e rest ih =>
    intro c hwf hg
    unfold wellFormedFrom at hwf
    by_cases hcond : c ≤ e.measureBeat ∧ 0 ≤ e.duration
    swap
    · rw [if_neg hcond] at hwf
      exact absurd hwf (by simp)
    rw [if_pos hcond] at hwf
    unfold renderEntriesGo
    by_cases hlt : c < e.measureBeat
    · obtain ⟨heq, hg2⟩ := gapsExact_split c e rest hlt hg
      rw [if_pos hlt]
      unfold chainedFromB
      simp only [TickableRender.pos, TickableRender.dur, List.cons_append, List.nil_append,
        if_pos rfl]
      rw [heq]
      have hc : c + (e.measureBeat - c) = e.measureBeat := by ring
      rw [hc]
      unfold chainedFromB
      simp only [TickableRender.pos, TickableRender.dur, if_pos rfl]
      exact ih (e.measureBeat + e.duration) hwf hg2
    · have hg2 : gapsExactFrom (e.measureBeat + e.duration) rest = true := by
        unfold gapsExactFrom at hg
        rwa [if_neg hlt] at hg
      have heq : e.measureBeat = c := le_antisymm (not_lt.mp hlt) hcond.1
      rw [if_neg hlt]
      unfold chainedFromB
      simp only [TickableRender.pos, TickableRender.dur, List.nil_append, if_pos heq]
      rw [heq] at hwf hg2 ⊢
      exact ih (c + e.duration) hwf hg2

theorem dursNonnegB_renderEntries (es : List FracEntry) :
    ∀ c : ℚ, wellFormedFrom c es = true → gapsExactFrom c es = true →
      dursNonnegB (renderEntriesGo c es) = true := by
  induction es with
  | nil => intro c _ _; rfl
  | cons e rest ih =>
    intro c hwf hg
    unfold wellFormedFrom at hwf
    by_cases hcond : c ≤ e.measureBeat ∧ 0 ≤ e.duration
    swap
    · rw [if_neg hcond] at hwf
      exact absurd hwf (by simp)
    rw [if_pos hcond] at hwf
    unfold renderEntriesGo
    by_cases hlt : c < e.measureBeat
    · obtain ⟨heq, hg2⟩ := gapsExact_split c e rest hlt hg
      rw [if_pos hlt]
      simp only [List.cons_append, List.nil_append]
      have hgap : (0 : ℚ) ≤ ghostBeats (e.measureBeat - c) := by
        rw [heq]
        linarith
      simp only [dursNonnegB, TickableRender.dur, if_pos hgap, if_pos hcond.2]
      exact ih (e.measureBeat + e.duration) hwf hg2
    · have hg2 : gapsExactFrom (e.measureBeat + e.duration) rest = true := by
        unfold gapsExactFrom at hg
        rwa [if_neg hlt] at hg
      rw [if_neg hlt]
      simp only [List.nil_append]
      simp only [dursNonnegB, TickableRender.dur, if_pos hcond.2]
      exact ih (e.measureBeat + e.duration) hwf hg2

theorem pairwiseChainB_of_chainedFromB (l : List TickableRender) :
    ∀ c : ℚ, chainedFromB c l = true → pairwiseChainB l = true := by
  induction l with
  | nil => intro c _; rfl
  | cons a rest ih =>
    intro c hch
    unfold chainedFromB at hch
    by_cases hpos : a.pos = c
    swap
    · rw [if_neg hpos] at hch
      exact absurd hch (by simp)
    rw [if_pos hpos] at hch
    cases rest with
    | nil => rfl
    | cons b rest2 =>
      have hbpos : b.pos = c + a.dur := by
        unfold chainedFromB at hch
        by_cases hb : b.pos = c + a.dur
        · exact hb
        · rw [if_neg hb] at hch
          exact absurd hch (by simp)
      unfold pairwiseChainB
      rw [if_pos (by rw [hpos, hbpos])]
      exact ih (c + a.dur) hch

theorem nondecB_of_chainedFromB (l : List TickableRender) :
    ∀ c : ℚ, chainedFromB c l = true → dursNonnegB l = true → nondecB l = true := by
  induction l with
  | nil => intro c _ _; rfl
  | cons a rest ih =>
    intro c hch hd
    unfold chainedFromB at hch
    by_cases hpos : a.pos = c
    swap
    · rw [if_neg hpos] at hch
      exact absurd hch (by simp)
    rw [if_pos hpos] at hch
    unfold dursNonnegB at hd
    by_cases hda : 0 ≤ a.dur
    swap
    · rw [if_neg hda] at hd
      exact absurd hd (by simp)
    rw [if_pos hda] at hd
    cases rest with
    | nil => rfl
    | cons b rest2 =>
      have hbpos : b.pos = c + a.dur := by
        unfold chainedFromB at hch
        by_cases hb : b.pos = c + a.dur
        · exact hb
        · rw [if_neg hb] at hch
          exact absurd hch (by simp)
      unfold nondecB
      rw [if_pos (by rw [hpos, hbpos]; linarith)]
      exact ih (c + a.dur) hch hd

/-- C1 counterexample, two failures of the claim as stated. First, on
overlapping input entries Voice.renderEntries inserts no ghost and the
reconciled sequence still overlaps. Second, even on ordered gap-only
input, the ghost's duration is quantized by renderVexflowGhostNote to a
standard duration type, so a 3-beat gap gets a 2-beat (half-note) ghost
that does not span the gap; in both cases measureBeat_i plus duration_i
does not equal measureBeat_{i+1}. -/
theorem renderEntries_chain_counterexample :
    pairwiseChainB (renderEntriesGo 0
      [{ measureBeat := 0, duration := 2 }, { measureBeat := 1, duration := 3 }]) = false
    ∧ wellFormedFrom 0
        [{ measureBeat := 0, duration := 1 }, { measureBeat := 4, duration := 1 }] = true
    ∧ pairwiseChainB (renderEntriesGo 0
        [{ measureBeat := 0, duration := 1 }, { measureBeat := 4, duration := 1 }]) = false := by
  refine ⟨?_, ?_, ?_⟩
  · have h : renderEntriesGo 0
        [{ measureBeat := 0, duration := 2 }, { measureBeat := 1, duration := 3 }]
        = [TickableRender.entryRender 0 2, TickableRender.entryRender 1 3] := by
      norm_num [renderEntriesGo]
    rw [h]
    norm_num [pairwiseChainB, TickableRender.pos, TickableRender.dur]
  · norm_num [wellFormedFrom]
  · have hquant : ghostBeats (3 : ℚ) = 2 := by
      norm_num [ghostBeats, ghostDurationValue, DURATION_TYPE_VALUES, firstDurationLE]
    have h : renderEntriesGo 0
        [{ measureBeat := 0, duration := 1 }, { measureBeat := 4, duration := 1 }]
        = [TickableRender.entryRender 0 1, TickableRender.ghostNote 1 2,
           TickableRender.entryRender 4 1] := by
      have h4 : (4 : ℚ) - 1 = 3 := by norm_num
      norm_num [renderEntriesGo, h4, hquant]
    rw [h]
    norm_num [pairwiseChainB, TickableRender.pos, TickableRender.dur]

/-- C1 (amended): for every voice entry sequence that is itself ordered
and non-overlapping from the initial cursor, whenever the next entry's
start beat is strictly greater than the running cursor a ghost tickable
is inserted before the real entry, with duration equal to the gap
quantized to the largest standard duration-type value not exceeding it
(breve fallback); provided every such gap quantizes exactly (the gap is
four times a standard duration value), the reconciled sequence has no
gaps and no overlaps (measureBeat_i plus duration_i equals
measureBeat_{i+1}) with entries ordered by non-decreasing measureBeat. -/
theorem renderEntries_gap_reconciliation (c c2 b d : ℚ) (es rest : List FracEntry)
    (hwf : wellFormedFrom c es = true) (hg : gapsExactFrom c es = true) (hlt : c2 < b) :
    chainedFromB c (renderEntriesGo c es) = true
    ∧ pairwiseChainB (renderEntriesGo c es) = true
    ∧ nondecB (renderEntriesGo c es) = true
    ∧ renderEntriesGo c2 ({ measureBeat := b, duration := d } :: rest)
        = TickableRender.ghostNote c2 (ghostBeats (b - c2))
          :: TickableRender.entryRender b d :: renderEntriesGo (b + d) rest := by
  have h1 := chainedFromB_renderEntries es c hwf hg
  have h2 := pairwiseChainB_of_chainedFromB _ c h1
  have h3 := nondecB_of_chainedFromB _ c h1 (dursNonnegB_renderEntries es c hwf hg)
  refine ⟨h1, h2, h3, ?_⟩
  simp only [renderEntriesGo, if_pos hlt, List.cons_append, List.nil_append]

theorem renderEntries_gap_reconciliation_witness :
    wellFormedFrom 0 [{ measureBeat := 0, duration := 1 }, { measureBeat := 2, duration := 1 }]
        = true
    ∧ gapsExactFrom 0
        [{ measureBeat := 0, duration := 1 }, { measureBeat := 2, duration := 1 }] = true
    ∧ (0 : ℚ) < 2
    ∧ (chainedFromB 0 (renderEntriesGo 0
          [{ measureBeat := 0, duration := 1 }, { measureBeat := 2, duration := 1 }]) = true
      ∧ pairwiseChainB (renderEntriesGo 0
          [{ measureBeat := 0, duration := 1 }, { measureBeat := 2, duration := 1 }]) = true
      ∧ nondecB (renderEntriesGo 0
          [{ measureBeat := 0, duration := 1 }, { measureBeat := 2, duration := 1 }]) = true
      ∧ renderEntriesGo 0 [{ measureBeat := 2, duration := 1 }]
          = TickableRender.ghostNote 0 (ghostBeats (2 - 0))
            :: TickableRender.entryRender 2 1 :: renderEntriesGo (2 + 1) []) :=
  ⟨by norm_num [wellFormedFrom],
   by norm_num [gapsExactFrom, ghostBeats, ghostDurationValue, DURATION_TYPE_VALUES,
     firstDurationLE],
   by norm_num,
   renderEntries_gap_reconciliation 0 0 2 1
     [{ measureBeat := 0, duration := 1 }, { measureBeat := 2, duration := 1 }] []
     (by norm_num [wellFormedFrom])
     (by norm_num [gapsExactFrom, ghostBeats, ghostDurationValue, DURATION_TYPE_VALUES,
       firstDurationLE])
     (by norm_num)⟩

theorem sum_map_mul_const (l : List ℚ) (k : ℚ) :
    (l.map (fun m => m * k)).sum = l.sum * k := by
  induction l with
  | nil => simp
  | cons a l ih => simp [List.map_cons, List.sum_cons, ih, add_mul]

theorem lineRenderWidths_last_eq (T : ℚ) (l : List ℚ) :
    lineRenderWidths T true l = l := by
  unfold lineRenderWidths fragmentRenderWidth
  simp

theorem lineRenderWidths_sum_eq_target (T : ℚ) (l : List ℚ) (h : l.sum ≠ 0) :
    (lineRenderWidths T false l).sum = T := by
  have hmap : lineRenderWidths T false l
      = l.map (fun m => m * (1 + (T - l.sum) / l.sum)) := by
    unfold lineRenderWidths fragmentRenderWidth getSystemFitWidth
    refine List.map_congr_left ?_
    intro m _
    simp only [Bool.false_eq_true, if_false]
    field_simp
    ring
  rw [hmap, sum_map_mul_const]
  field_simp

theorem linePartitionGo_bounds (T : ℚ) (ws : List ℚ) :
    ∀ (cur : List ℚ) (rem : ℚ), cur.sum = T - rem → 0 ≤ rem → (∀ x ∈ cur, 0 < x) →
      (∀ x ∈ ws, 0 < x ∧ x ≤ T) →
      ∀ l ∈ linePartitionGo T cur rem ws, l.sum ≤ T ∧ ∀ x ∈ l, 0 < x := by
  induction ws with
  | nil =>
    intro cur rem hsum hrem hcur _ l hl
    unfold linePartitionGo at hl
    rw [List.mem_singleton] at hl
    subst hl
    exact ⟨by rw [hsum]; linarith, hcur⟩
  | cons w rest ih =>
    intro cur rem hsum hrem hcur hws l hl
    have hw := hws w (List.mem_cons_self w rest)
    have hrest : ∀ x ∈ rest, 0 < x ∧ x ≤ T := fun x hx => hws x (List.mem_cons_of_mem w hx)
    unfold linePartitionGo at hl
    by_cases hfit : w ≤ rem
    · rw [if_pos hfit] at hl
      refine ih (cur ++ [w]) (rem - w) ?_ ?_ ?_ hrest l hl
      · rw [List.sum_append, hsum]
        simp [List.sum_cons]
        ring
      · linarith
      · intro x hx
        rcases List.mem_append.mp hx with hx | hx
        · exact hcur x hx
        · rw [List.mem_singleton] at hx
          subst hx
          exact hw.1
    · rw [if_neg hfit] at hl
      rcases List.mem_cons.mp hl with hl | hl
      · subst hl
        exact ⟨by rw [hsum]; linarith, hcur⟩
      · refine ih [w] (T - w) ?_ ?_ ?_ hrest l hl
        · simp
        · linarith [hw.2]
        · intro x hx
          rw [List.mem_singleton] at hx
          subst hx
          exact hw.1

theorem partitionMinWidths_facts (T : ℚ) (ws : List ℚ)
    (h : ∀ x ∈ ws, 0 < x ∧ x ≤ T) :
    ∀ l ∈ partitionMinWidths T ws, l ≠ [] ∧ l.sum ≤ T ∧ ∀ x ∈ l, 0 < x := by
  intro l hl
  unfold partitionMinWidths at hl
  rw [List.mem_filter] at hl
  have hne : l ≠ [] := by
    intro hnil
    subst hnil
    simp at hl
  cases ws with
  | nil =>
    exfalso
    unfold linePartitionGo at hl
    rcases hl with ⟨hl, _⟩
    rw [List.mem_singleton] at hl
    exact hne hl
  | cons w rest =>
    have hT : 0 ≤ T := by
      have := h w (List.mem_cons_self w rest)
      linarith [this.1, this.2]
    have := linePartitionGo_bounds T (w :: rest) [] T (by simp) hT (by simp) h l hl.1
    exact ⟨hne, this.1, this.2⟩

/-- C3 counterexample: a single system whose minimum width exceeds the
target width lands alone on the (last) line, which renders at its natural
minimum width 100, strictly wider than the 50 target — so the last line's
width is not always at most the target width. -/
theorem justification_last_line_counterexample :
    ¬ (((layoutLineWidths 50 [100]).getLastD []).sum ≤ 50) := by
  have h : layoutLineWidths 50 [100] = [[(100 : ℚ)]] := by
    norm_num [layoutLineWidths, partitionMinWidths, linePartitionGo, List.filter,
      List.enum, List.enumFrom, lineRenderWidths, fragmentRenderWidth]
  rw [h]
  norm_num [List.getLastD]

/-- C3 (amended): provided every system's minimum required width is
positive and at most the target width, every line except the last is
stretched to exactly fill the target width — each fragment absorbing
slack in proportion minRequiredWidth / minRequiredWidth(line), so a
non-last line's stretched widths sum to the target — while the last line
renders at its natural unstretched minimum widths, whose sum is at most
the target width. -/
theorem justification_line_widths (T : ℚ) (ws : List ℚ)
    (h : ∀ x ∈ ws, 0 < x ∧ x ≤ T) :
    ∀ init last, partitionMinWidths T ws = init ++ [last] →
      (∀ l ∈ init, (lineRenderWidths T false l).sum = T)
      ∧ lineRenderWidths T true last = last ∧ last.sum ≤ T := by
  intro init last hdec
  have hfacts := partitionMinWidths_facts T ws h
  rw [hdec] at hfacts
  constructor
  · intro l hl
    have hf := hfacts l (List.mem_append.mpr (Or.inl hl))
    have hpos : 0 < l.sum := List.sum_pos l hf.2.2 hf.1
    exact lineRenderWidths_sum_eq_target T l (ne_of_gt hpos)
  · have hf := hfacts last (List.mem_append.mpr (Or.inr (List.mem_singleton_self last)))
    exact ⟨lineRenderWidths_last_eq T last, hf.2.1⟩

theorem justification_line_widths_witness :
    (∀ x ∈ [(500 : ℚ), 500], 0 < x ∧ x ≤ 1200)
    ∧ partitionMinWidths 1200 [500, 500] = [] ++ [[500, 500]]
    ∧ ((∀ l ∈ ([] : List (List ℚ)), (lineRenderWidths 1200 false l).sum = 1200)
      ∧ lineRenderWidths 1200 true [500, 500] = [500, 500]
      ∧ ([(500 : ℚ), 500]).sum ≤ 1200) := by
  have h1 : ∀ x ∈ [(500 : ℚ), 500], 0 < x ∧ x ≤ 1200 := by
    intro x hx
    rcases List.mem_cons.mp hx with hx | hx
    · subst hx; norm_num
    · rw [List.mem_singleton] at hx
      subst hx; norm_num
  have h2 : partitionMinWidths 1200 [500, 500] = [] ++ [[500, 500]] := by
    norm_num [partitionMinWidths, linePartitionGo, List.filter]
  exact ⟨h1, h2, justification_line_widths 1200 [500, 500] h1 [] [500, 500] h2⟩

theorem getFragmentsGo_eq_finish (mi : Nat) (bb eb : String) :
    ∀ (es : List MEntry) (st : StaveSig × List MEntry × List Frag), es ≠ [] →
      getFragmentsGo mi bb eb st es
        = fragFinish mi bb eb (es.foldl (fragStep bb) st) := by
  intro es
  induction es with
  | nil => intro st hne; exact absurd rfl hne
  | cons e rest ih =>
    intro st _
    cases rest with
    | nil => rfl
    | cons e2 rest2 =>
      show getFragmentsGo mi bb eb (fragStep bb st e) (e2 :: rest2) = _
      rw [ih (fragStep bb st e) (by simp)]
      rfl

theorem fragStep_fst (bb : String) (sig : StaveSig) (cur : List MEntry) (frags : List Frag)
    (e : MEntry) :
    (fragStep bb (sig, cur, frags) e).1
      = match e with
        | MEntry.sig s => s
        | MEntry.direction _ => sig
        | MEntry.other _ => sig := by
  cases e with
  | sig s =>
    simp only [fragStep]
    split <;> rfl
  | direction hasMet =>
    simp only [fragStep]
    split <;> rfl
  | other p => rfl

theorem foldl_fragStep_fst (bb : String) :
    ∀ (es : List MEntry) (st : StaveSig × List MEntry × List Frag),
      (es.foldl (fragStep bb) st).1 = runningSig st.1 es := by
  intro es
  induction es with
  | nil => intro st; rfl
  | cons e rest ih =>
    intro st
    rw [List.foldl_cons, ih (fragStep bb st e)]
    obtain ⟨sig, cur, frags⟩ := st
    cases e with
    | sig s =>
      rw [fragStep_fst]
      rfl
    | direction hasMet =>
      rw [fragStep_fst]
      rfl
    | other p =>
      rw [fragStep_fst]
      rfl

theorem foldl_fragStep_no_split (bb : String) :
    ∀ (es : List MEntry) (sig : StaveSig) (cur : List MEntry) (frags : List Frag),
      (∀ e ∈ es, nonSplitting e = true) →
      es.foldl (fragStep bb) (sig, cur, frags) = (runningSig sig es, cur ++ es, frags) := by
  intro es
  induction es with
  | nil => intro sig cur frags _; simp [runningSig]
  | cons e rest ih =>
    intro sig cur frags hns
    have hne := hns e (List.mem_cons_self e rest)
    have hnr : ∀ x ∈ rest, nonSplitting x = true :=
      fun x hx => hns x (List.mem_cons_of_mem e hx)
    rw [List.foldl_cons]
    cases e with
    | sig s =>
      have hchanged : s.changed.isEmpty = true := hne
      have hstep : fragStep bb (sig, cur, frags) (MEntry.sig s)
          = (s, cur ++ [MEntry.sig s], frags) := by
        simp only [fragStep]
        rw [if_neg (by simp [hchanged])]
      rw [hstep, ih s (cur ++ [MEntry.sig s]) frags hnr]
      simp [runningSig]
    | direction hasMet =>
      have hmet : hasMet = false := by
        simpa [nonSplitting] using hne
      subst hmet
      have hstep : fragStep bb (sig, cur, frags) (MEntry.direction false)
          = (sig, cur ++ [MEntry.direction false], frags) := by
        simp only [fragStep]
        rw [if_neg (by simp)]
      rw [hstep, ih sig (cur ++ [MEntry.direction false]) frags hnr]
      simp [runningSig]
    | other p =>
      have hstep : fragStep bb (sig, cur, frags) (MEntry.other p)
          = (sig, cur ++ [MEntry.other p], frags) := by
        rfl
      rw [hstep, ih sig (cur ++ [MEntry.other p]) frags hnr]
      simp [runningSig]

/-- C4 counterexample: a measure whose entries contain no signature event
with a non-empty modifier diff and no supported metronome direction still
produces two fragments when the next stave signature carries a clef change
landing at entry index 0 of the following measure. -/
theorem getFragments_single_fragment_counterexample :
    (∀ e ∈ [MEntry.other 0], nonSplitting e = true)
    ∧ (getFragments 0 "regular" "regular"
        (StaveSig.mk [] 0 0 (some (StaveSig.mk ["clef"] 1 0 none)))
        [MEntry.other 0]).length ≠ 1 := by
  constructor
  · intro e he
    rw [List.mem_singleton] at he
    subst he
    rfl
  · have h : (getFragments 0 "regular" "regular"
        (StaveSig.mk [] 0 0 (some (StaveSig.mk ["clef"] 1 0 none)))
        [MEntry.other 0]).length = 2 := rfl
    rw [h]
    decide

/-- C4 (amended): for every measure with a non-empty entry sequence that
contains no signature event with a non-empty modifier diff and no
supported mid-measure metronome direction, and whose signature in effect
at the measure's end has no clef change landing at entry index 0 of the
immediately following measure, getFragments produces exactly one fragment
whose entries are exactly the measure's entries. -/
theorem getFragments_no_split_single (mi : Nat) (bb eb : String) (sig : StaveSig)
    (es : List MEntry) (hne : es ≠ [])
    (hns : ∀ e ∈ es, nonSplitting e = true)
    (hcb : clefBoundary mi (runningSig sig es) = false) :
    getFragments mi bb eb sig es
      = [{ leadingSig := runningSig sig es, entries := es, begBar := bb, endBar := eb }] := by
  unfold getFragments
  rw [getFragmentsGo_eq_finish mi bb eb es (sig, [], []) hne,
    foldl_fragStep_no_split bb es sig [] [] hns]
  simp only [fragFinish, List.nil_append]
  rw [if_neg (by rw [hcb]; simp)]
  simp

theorem getFragments_no_split_single_witness :
    ([MEntry.other 3, MEntry.direction false] ≠ [])
    ∧ (∀ e ∈ [MEntry.other 3, MEntry.direction false], nonSplitting e = true)
    ∧ clefBoundary 0 (runningSig (StaveSig.mk [] 0 0 none)
        [MEntry.other 3, MEntry.direction false]) = false
    ∧ getFragments 0 "regular" "light-heavy" (StaveSig.mk [] 0 0 none)
        [MEntry.other 3, MEntry.direction false]
      = [{ leadingSig := runningSig (StaveSig.mk [] 0 0 none)
             [MEntry.other 3, MEntry.direction false],
           entries := [MEntry.other 3, MEntry.direction false],
           begBar := "regular", endBar := "light-heavy" }] := by
  have h1 : ([MEntry.other 3, MEntry.direction false] ≠ []) := by simp
  have h2 : ∀ e ∈ [MEntry.other 3, MEntry.direction false], nonSplitting e = true := by
    intro e he
    rcases List.mem_cons.mp he with he | he
    · subst he; rfl
    · rw [List.mem_singleton] at he
      subst he; rfl
  have h3 : clefBoundary 0 (runningSig (StaveSig.mk [] 0 0 none)
      [MEntry.other 3, MEntry.direction false]) = false := rfl
  exact ⟨h1, h2, h3,
    getFragments_no_split_single 0 "regular" "light-heavy" (StaveSig.mk [] 0 0 none)
      [MEntry.other 3, MEntry.direction false] h1 h2 h3⟩

/-- C5: for every non-empty measure whose signature in effect at the last
entry has a next signature with a clef change landing at entry index 0 of
the immediately following measure, getFragments closes the measure with
its own fragment (end bar style none) and appends an extra trailing
fragment whose entries consist only of that next signature, carrying the
measure's end bar style. -/
theorem getFragments_clef_boundary_trailing (mi : Nat) (bb eb : String) (sig : StaveSig)
    (es : List MEntry) (nxt : StaveSig) (hne : es ≠ [])
    (hnext : (runningSig sig es).next = some nxt)
    (hcb : clefBoundary mi (runningSig sig es) = true) :
    ∃ frags cur bb2,
      getFragments mi bb eb sig es
        = frags ++ [{ leadingSig := runningSig sig es, entries := cur,
                      begBar := bb2, endBar := "none" },
                    { leadingSig := nxt, entries := [MEntry.sig nxt],
                      begBar := "none", endBar := eb }] := by
  unfold getFragments
  rw [getFragmentsGo_eq_finish mi bb eb es (sig, [], []) hne]
  have hfst := foldl_fragStep_fst bb es (sig, [], [])
  set st := es.foldl (fragStep bb) (sig, [], []) with hstdef
  clear_value st
  obtain ⟨fsig, fcur, ffrags⟩ := st
  simp only at hfst
  subst hfst
  refine ⟨ffrags, fcur, if ffrags.isEmpty then bb else "none", ?_⟩
  simp only [fragFinish, if_pos hcb, hnext]

theorem getFragments_clef_boundary_trailing_witness :
    ([MEntry.other 7] ≠ [])
    ∧ (runningSig (StaveSig.mk [] 0 0 (some (StaveSig.mk ["clef"] 1 0 none)))
        [MEntry.other 7]).next = some (StaveSig.mk ["clef"] 1 0 none)
    ∧ clefBoundary 0 (runningSig (StaveSig.mk [] 0 0 (some (StaveSig.mk ["clef"] 1 0 none)))
        [MEntry.other 7]) = true
    ∧ ∃ frags cur bb2,
        getFragments 0 "regular" "light-heavy"
            (StaveSig.mk [] 0 0 (some (StaveSig.mk ["clef"] 1 0 none))) [MEntry.other 7]
          = frags ++ [{ leadingSig := runningSig
                          (StaveSig.mk [] 0 0 (some (StaveSig.mk ["clef"] 1 0 none)))
                          [MEntry.other 7],
                        entries := cur, begBar := bb2, endBar := "none" },
                      { leadingSig := StaveSig.mk ["clef"] 1 0 none,
                        entries := [MEntry.sig (StaveSig.mk ["clef"] 1 0 none)],
                        begBar := "none", endBar := "light-heavy" }] := by
  have h1 : ([MEntry.other 7] ≠ []) := by simp
  have h2 : (runningSig (StaveSig.mk [] 0 0 (some (StaveSig.mk ["clef"] 1 0 none)))
      [MEntry.other 7]).next = some (StaveSig.mk ["clef"] 1 0 none) := rfl
  have h3 : clefBoundary 0 (runningSig
      (StaveSig.mk [] 0 0 (some (StaveSig.mk ["clef"] 1 0 none))) [MEntry.other 7]) = true := rfl
  exact ⟨h1, h2, h3,
    getFragments_clef_boundary_trailing 0 "regular" "light-heavy"
      (StaveSig.mk [] 0 0 (some (StaveSig.mk ["clef"] 1 0 none))) [MEntry.other 7]
      (StaveSig.mk ["clef"] 1 0 none) h1 h2 h3⟩

/-- No multi-rest count applies to (partId, staveNumber): the part either
has no inner map, or its inner map binds neither the null key nor the
stave number. -/
def noMultiRestEntry (s : ScoreCtx) (p : String) (stv : Option Nat) : Bool :=
  match mapGet s.multiRestCounts p with
  | none => true
  | some m => (mapGet m none).isNone && (mapGet m stv).isNone

theorem mapKeys_append {α β : Type} (a b : List (α × β)) :
    mapKeys (a ++ b) = mapKeys a ++ mapKeys b := by
  simp [mapKeys]

/-- The inner-map invariant maintained across decrement passes: the stave
number is bound to the remaining count, the null key is unbound unless the
stave number is itself null, and the stave number occurs exactly once in
the key snapshot. -/
def InnerInv (stv : Option Nat) (c : Nat) (m : List (Option Nat × Nat)) : Prop :=
  mapGet m stv = some c ∧ (stv = none ∨ mapGet m none = none)
    ∧ ∃ l1 l2, mapKeys m = l1 ++ stv :: l2 ∧ stv ∉ l1 ∧ stv ∉ l2

theorem multiRestCountIn_eq (m : List (Option Nat × Nat)) (stv : Option Nat) (c : Nat)
    (hstv : mapGet m stv = some c) (hnone : stv = none ∨ mapGet m none = none) :
    multiRestCountIn m stv = c := by
  unfold multiRestCountIn
  rcases hnone with h | h
  · subst h
    rw [hstv]
  · rw [h, hstv]
    rfl

theorem decStep_preserve (m : List (Option Nat × Nat)) (k stv : Option Nat)
    (hk : k ≠ stv) (hknone : k ≠ none) (hmem : k ∈ mapKeys m) :
    mapGet (decrementPartStep m k) stv = mapGet m stv
    ∧ mapGet (decrementPartStep m k) none = mapGet m none
    ∧ mapKeys (decrementPartStep m k) = mapKeys m := by
  unfold decrementPartStep
  by_cases h : 0 < multiRestCountIn m k
  · rw [if_pos h]
    exact ⟨mapGet_mapSet_ne m k stv _ (Ne.symm hk),
      mapGet_mapSet_ne m k none _ (Ne.symm hknone),
      mapKeys_mapSet_of_mem m k _ hmem⟩
  · rw [if_neg h]
    exact ⟨rfl, rfl, rfl⟩

theorem foldl_decStep_preserve (stv : Option Nat) :
    ∀ (ks : List (Option Nat)) (m : List (Option Nat × Nat)),
      stv ∉ ks → (none : Option Nat) ∉ ks → (∀ k ∈ ks, k ∈ mapKeys m) →
      mapGet (ks.foldl decrementPartStep m) stv = mapGet m stv
      ∧ mapGet (ks.foldl decrementPartStep m) none = mapGet m none
      ∧ mapKeys (ks.foldl decrementPartStep m) = mapKeys m := by
  intro ks
  induction ks with
  | nil => exact fun m _ _ _ => ⟨rfl, rfl, rfl⟩
  | cons k ks ih =>
    intro m hstv hnone hmem
    have hk : k ≠ stv := fun h => hstv (h ▸ List.mem_cons_self k ks)
    have hkn : k ≠ none := fun h => hnone (h ▸ List.mem_cons_self k ks)
    have hkm : k ∈ mapKeys m := hmem k (List.mem_cons_self k ks)
    have hsp := decStep_preserve m k stv hk hkn hkm
    have hrec := ih (decrementPartStep m k)
      (fun h => hstv (List.mem_cons_of_mem k h))
      (fun h => hnone (List.mem_cons_of_mem k h))
      (fun x hx => hsp.2.2 ▸ hmem x (List.mem_cons_of_mem k hx))
    rw [List.foldl_cons]
    exact ⟨hrec.1.trans hsp.1, hrec.2.1.trans hsp.2.1, hrec.2.2.trans hsp.2.2⟩

theorem decStep_at_stv (m : List (Option Nat × Nat)) (stv : Option Nat) (c : Nat)
    (hstv : mapGet m stv = some c) (hnone : stv = none ∨ mapGet m none = none)
    (hmem : stv ∈ mapKeys m) :
    mapGet (decrementPartStep m stv) stv = some (c - 1)
    ∧ (stv = none ∨ mapGet (decrementPartStep m stv) none = none)
    ∧ mapKeys (decrementPartStep m stv) = mapKeys m := by
  have hcount : multiRestCountIn m stv = c := multiRestCountIn_eq m stv c hstv hnone
  unfold decrementPartStep
  rw [hcount]
  by_cases hc : 0 < c
  · rw [if_pos hc]
    refine ⟨mapGet_mapSet_self m stv (c - 1), ?_, mapKeys_mapSet_of_mem m stv _ hmem⟩
    rcases hnone with h | h
    · exact Or.inl h
    · have hne : stv ≠ none := by
        intro he
        rw [he, h] at hstv
        exact Option.noConfusion hstv
      exact Or.inr ((mapGet_mapSet_ne m stv none _ (Ne.symm hne)).trans h)
  · rw [if_neg hc]
    have hzero : c = 0 := Nat.eq_zero_of_not_pos hc
    subst hzero
    exact ⟨hstv, hnone, rfl⟩

theorem decrementPart_inv (stv : Option Nat) (c : Nat) (m : List (Option Nat × Nat))
    (h : InnerInv stv c m) : InnerInv stv (c - 1) (decrementPart m) := by
  obtain ⟨hstv, hnone, l1, l2, hkeys, hl1, hl2⟩ := h
  have hnone_keys : ∀ k, k ∈ l1 ∨ k ∈ l2 → k ≠ none := by
    intro k hin hkn
    subst hkn
    rcases hnone with h | h
    · rcases hin with hin | hin
      · exact hl1 (h ▸ hin)
      · exact hl2 (h ▸ hin)
    · have : (none : Option Nat) ∉ mapKeys m := (mapGet_eq_none_iff m none).mp h
      rcases hin with hin | hin
      · exact this (hkeys ▸ List.mem_append.mpr (Or.inl hin))
      · exact this (hkeys ▸ List.mem_append.mpr (Or.inr (List.mem_cons_of_mem stv hin)))
  unfold decrementPart
  rw [hkeys, List.foldl_append, List.foldl_cons]
  have hmem_l1 : ∀ k ∈ l1, k ∈ mapKeys m :=
    fun k hk => hkeys ▸ List.mem_append.mpr (Or.inl hk)
  have hnone_l1 : (none : Option Nat) ∉ l1 :=
    fun hin => hnone_keys none (Or.inl hin) rfl
  have h1 := foldl_decStep_preserve stv l1 m hl1 hnone_l1 hmem_l1
  set m1 := l1.foldl decrementPartStep m with hm1def
  have hstv1 : mapGet m1 stv = some c := h1.1.trans hstv
  have hnone1 : stv = none ∨ mapGet m1 none = none := by
    rcases hnone with h | h
    · exact Or.inl h
    · exact Or.inr (h1.2.1.trans h)
  have hmem1 : stv ∈ mapKeys m1 := by
    rw [h1.2.2, hkeys]
    exact List.mem_append.mpr (Or.inr (List.mem_cons_self stv l2))
  have h2 := decStep_at_stv m1 stv c hstv1 hnone1 hmem1
  set m2 := decrementPartStep m1 stv with hm2def
  have hkeys2 : mapKeys m2 = mapKeys m := h2.2.2.trans h1.2.2
  have hmem_l2 : ∀ k ∈ l2, k ∈ mapKeys m2 := by
    intro k hk
    rw [hkeys2, hkeys]
    exact List.mem_append.mpr (Or.inr (List.mem_cons_of_mem stv hk))
  have hnone_l2 : (none : Option Nat) ∉ l2 :=
    fun hin => hnone_keys none (Or.inr hin) rfl
  have h3 := foldl_decStep_preserve stv l2 m2 hl2 hnone_l2 hmem_l2
  refine ⟨h3.1.trans h2.1, ?_, l1, l2, (h3.2.2.trans hkeys2).trans hkeys, hl1, hl2⟩
  rcases h2.2.1 with h | h
  · exact Or.inl h
  · exact Or.inr (h3.2.1.trans h)

theorem mapGet_map_decrementPart (l : List (String × List (Option Nat × Nat))) (p : String) :
    mapGet (l.map (fun pm => (pm.1, decrementPart pm.2))) p
      = (mapGet l p).map decrementPart := by
  induction l with
  | nil => rfl
  | cons hd tl ih =>
    obtain ⟨k0, v0⟩ := hd
    by_cases h : p = k0
    · simp [mapGet, h]
    · simp [mapGet, h, ih]

/-- The part-level invariant: the part's inner map exists and satisfies
the inner invariant for the remaining count. -/
def ScoreInv (p : String) (stv : Option Nat) (c : Nat) (s : ScoreCtx) : Prop :=
  ∃ m, mapGet s.multiRestCounts p = some m ∧ InnerInv stv c m

theorem decrement_scoreInv (p : String) (stv : Option Nat) (c : Nat) (s : ScoreCtx)
    (h : ScoreInv p stv c s) : ScoreInv p stv (c - 1) (decrementMultiRestCounts s) := by
  obtain ⟨m, hm, hinv⟩ := h
  refine ⟨decrementPart m, ?_, decrementPart_inv stv c m hinv⟩
  show mapGet (s.multiRestCounts.map (fun pm => (pm.1, decrementPart pm.2))) p = _
  rw [mapGet_map_decrementPart, hm]
  rfl

theorem getCount_of_scoreInv (p : String) (stv : Option Nat) (c : Nat) (s : ScoreCtx)
    (h : ScoreInv p stv c s) : getMultiRestCount p stv s = c := by
  obtain ⟨m, hm, hstv, hnone, _⟩ := h
  unfold getMultiRestCount
  rw [hm]
  exact multiRestCountIn_eq m stv c hstv hnone

theorem increment_scoreInv (s : ScoreCtx) (p : String) (stv : Option Nat) (N : Nat)
    (h0 : noMultiRestEntry s p stv = true) :
    ScoreInv p stv N (incrementMultiRestCount p stv N s) := by
  unfold noMultiRestEntry at h0
  unfold incrementMultiRestCount
  cases hpart : mapGet s.multiRestCounts p with
  | none =>
    simp only [Option.isSome_none, Bool.false_eq_true, if_false]
    have hinner : mapGet (mapSet s.multiRestCounts p []) p
        = some ([] : List (Option Nat × Nat)) := mapGet_mapSet_self _ _ _
    have hcur : getMultiRestCount p stv
        { s with multiRestCounts := mapSet s.multiRestCounts p [] } = 0 := by
      unfold getMultiRestCount
      show (match mapGet (mapSet s.multiRestCounts p []) p with
        | none => 0
        | some m => multiRestCountIn m stv) = 0
      rw [hinner]
      rfl
    rw [hinner]
    simp only [Option.getD_some]
    rw [hcur]
    simp only [Nat.add_zero]
    refine ⟨mapSet [] stv N, ?_, ?_, ?_, [], [], ?_, by simp, by simp⟩
    · exact mapGet_mapSet_self _ _ _
    · exact mapGet_mapSet_self _ _ _
    · by_cases hsn : stv = none
      · exact Or.inl hsn
      · refine Or.inr ?_
        show mapGet (mapSet ([] : List (Option Nat × Nat)) stv N) none = none
        rw [mapGet_mapSet_ne _ _ _ _ (fun h => hsn h.symm)]
        rfl
    · rfl
  | some m0 =>
    rw [hpart] at h0
    have h0' : ((mapGet m0 none).isNone && (mapGet m0 stv).isNone) = true := h0
    have hpair : mapGet m0 none = none ∧ mapGet m0 stv = none := by
      simp only [Bool.and_eq_true, Option.isNone_iff_eq_none] at h0'
      exact h0'
    have hnone0 : mapGet m0 none = none := hpair.1
    have hstv0 : mapGet m0 stv = none := hpair.2
    simp only [Option.isSome_some, if_true]
    rw [hpart]
    simp only [Option.getD_some]
    have hcur : getMultiRestCount p stv s = 0 := by
      unfold getMultiRestCount
      rw [hpart]
      show multiRestCountIn m0 stv = 0
      unfold multiRestCountIn
      rw [hnone0, hstv0]
      rfl
    rw [hcur]
    simp only [Nat.add_zero]
    have hnotmem : stv ∉ mapKeys m0 := (mapGet_eq_none_iff m0 stv).mp hstv0
    refine ⟨mapSet m0 stv N, mapGet_mapSet_self _ _ _, ?_, ?_, mapKeys m0, [], ?_,
      hnotmem, by simp⟩
    · exact mapGet_mapSet_self _ _ _
    · by_cases hsn : stv = none
      · exact Or.inl hsn
      · refine Or.inr ?_
        rw [mapGet_mapSet_ne _ _ _ _ (fun h => hsn h.symm)]
        exact hnone0
    · rw [mapKeys_mapSet_of_not_mem m0 stv _ hnotmem, mapKeys_append]
      rfl

/-- C6: starting from a ScoreContext with no multi-rest count applying to
(partId, staveNumber), after incrementMultiRestCount with count N the
value of getMultiRestCount after k decrement passes is exactly N - k
(truncated at zero): each of the first N decrements lowers it by exactly
one, it reaches 0 after exactly N decrements, and later decrements leave
it at 0 — it never becomes negative. -/
theorem multiRest_count_lifecycle (s : ScoreCtx) (p : String) (stv : Option Nat) (N : Nat)
    (hN : 0 < N) (h0 : noMultiRestEntry s p stv = true) :
    ∀ k : Nat, getMultiRestCount p stv
        (decrementMultiRestCounts^[k] (incrementMultiRestCount p stv N s)) = N - k := by
  have hiter : ∀ k : Nat, ScoreInv p stv (N - k)
      (decrementMultiRestCounts^[k] (incrementMultiRestCount p stv N s)) := by
    intro k
    induction k with
    | zero =>
      simpa using increment_scoreInv s p stv N h0
    | succ k ih =>
      rw [Function.iterate_succ_apply']
      have h := decrement_scoreInv p stv (N - k) _ ih
      have harith : N - (k + 1) = N - k - 1 := by omega
      rw [harith]
      exact h
  intro k
  exact getCount_of_scoreInv p stv (N - k) _ (hiter k)

theorem multiRest_count_lifecycle_witness :
    0 < 2 ∧ noMultiRestEntry emptyScoreCtx "P1" (some 1) = true
    ∧ (∀ k : Nat, getMultiRestCount "P1" (some 1)
        (decrementMultiRestCounts^[k]
          (incrementMultiRestCount "P1" (some 1) 2 emptyScoreCtx)) = 2 - k) :=
  ⟨Nat.zero_lt_two, rfl,
   multiRest_count_lifecycle emptyScoreCtx "P1" (some 1) 2 Nat.zero_lt_two rfl⟩

theorem incrementMultiRestCount_nextIdVal (p : String) (stv : Option Nat) (c : Nat)
    (s : ScoreCtx) : (incrementMultiRestCount p stv c s).nextIdVal = s.nextIdVal := by
  unfold incrementMultiRestCount
  cases hm : mapGet s.multiRestCounts p <;> rfl

theorem incrementMultiRestCount_curveIds (p : String) (stv : Option Nat) (c : Nat)
    (s : ScoreCtx) : (incrementMultiRestCount p stv c s).curveIds = s.curveIds := by
  unfold incrementMultiRestCount
  cases hm : mapGet s.multiRestCounts p <;> rfl

theorem beginWedge_nextIdVal (p : String) (stv : Nat) (wt pl : String) (s : ScoreCtx) :
    (beginWedge p stv wt pl s).2.nextIdVal = s.nextIdVal + 1 := by
  unfold beginWedge nextId
  simp only []
  split <;> rfl

theorem beginWedge_curveIds (p : String) (stv : Nat) (wt pl : String) (s : ScoreCtx) :
    (beginWedge p stv wt pl s).2.curveIds = s.curveIds := by
  unfold beginWedge nextId
  simp only []
  split <;> rfl

theorem closeWedge_nextIdVal (p : String) (stv : Nat) (s : ScoreCtx) :
    (closeWedge p stv s).nextIdVal = s.nextIdVal := by
  unfold closeWedge
  cases hm : mapGet s.wedgeIds p <;> rfl

theorem closeWedge_curveIds (p : String) (stv : Nat) (s : ScoreCtx) :
    (closeWedge p stv s).curveIds = s.curveIds := by
  unfold closeWedge
  cases hm : mapGet s.wedgeIds p <;> rfl

theorem continueOpenPedal_nextIdVal (p : String) (s : ScoreCtx) :
    (continueOpenPedal p s).2.nextIdVal = s.nextIdVal := by
  unfold continueOpenPedal
  cases hm : mapGet s.pedalIds p <;> rfl

theorem continueOpenPedal_curveIds (p : String) (s : ScoreCtx) :
    (continueOpenPedal p s).2.curveIds = s.curveIds := by
  unfold continueOpenPedal
  cases hm : mapGet s.pedalIds p <;> rfl

theorem primeNextPedalMark_nextIdVal (p t : String) (s : ScoreCtx) :
    (primeNextPedalMark p t s).nextIdVal = s.nextIdVal := by
  unfold primeNextPedalMark
  cases hm : mapGet s.pedalIds p <;> rfl

theorem primeNextPedalMark_curveIds (p t : String) (s : ScoreCtx) :
    (primeNextPedalMark p t s).curveIds = s.curveIds := by
  unfold primeNextPedalMark
  cases hm : mapGet s.pedalIds p <;> rfl

theorem applyOp_nextIdVal_le (o : ScoreOp) (s : ScoreCtx) :
    s.nextIdVal ≤ (applyOp o s).nextIdVal := by
  cases o with
  | incMultiRest p stv c =>
    rw [show applyOp (ScoreOp.incMultiRest p stv c) s = incrementMultiRestCount p stv c s
      from rfl, incrementMultiRestCount_nextIdVal]
  | decMultiRests => exact le_refl _
  | beginCurveOp n pl opn => exact Nat.le_succ _
  | beginWedgeOp p stv wt pl =>
    rw [show applyOp (ScoreOp.beginWedgeOp p stv wt pl) s = (beginWedge p stv wt pl s).2
      from rfl, beginWedge_nextIdVal]
    exact Nat.le_succ _
  | closeWedgeOp p stv =>
    rw [show applyOp (ScoreOp.closeWedgeOp p stv) s = closeWedge p stv s from rfl,
      closeWedge_nextIdVal]
  | beginPedalOp p pt => exact Nat.le_succ _
  | continueOpenPedalOp p =>
    rw [show applyOp (ScoreOp.continueOpenPedalOp p) s = (continueOpenPedal p s).2 from rfl,
      continueOpenPedal_nextIdVal]
  | primeNextPedalMarkOp p t =>
    rw [show applyOp (ScoreOp.primeNextPedalMarkOp p t) s = primeNextPedalMark p t s
      from rfl, primeNextPedalMark_nextIdVal]
  | closePedalOp p => exact le_refl _

theorem applyOp_curveGet (o : ScoreOp) (s : ScoreCtx) (n : Option Nat)
    (h : ∀ a b, o ≠ ScoreOp.beginCurveOp n a b) :
    mapGet (applyOp o s).curveIds n = mapGet s.curveIds n := by
  cases o with
  | incMultiRest p stv c =>
    rw [show applyOp (ScoreOp.incMultiRest p stv c) s = incrementMultiRestCount p stv c s
      from rfl, incrementMultiRestCount_curveIds]
  | decMultiRests => rfl
  | beginCurveOp m pl opn =>
    have hmn : m ≠ n := by
      intro he
      exact h pl opn (by rw [he])
    show mapGet (mapSet s.curveIds m s.nextIdVal) n = mapGet s.curveIds n
    exact mapGet_mapSet_ne _ _ _ _ (Ne.symm hmn)
  | beginWedgeOp p stv wt pl =>
    rw [show applyOp (ScoreOp.beginWedgeOp p stv wt pl) s = (beginWedge p stv wt pl s).2
      from rfl, beginWedge_curveIds]
  | closeWedgeOp p stv =>
    rw [show applyOp (ScoreOp.closeWedgeOp p stv) s = closeWedge p stv s from rfl,
      closeWedge_curveIds]
  | beginPedalOp p pt => rfl
  | continueOpenPedalOp p =>
    rw [show applyOp (ScoreOp.continueOpenPedalOp p) s = (continueOpenPedal p s).2 from rfl,
      continueOpenPedal_curveIds]
  | primeNextPedalMarkOp p t =>
    rw [show applyOp (ScoreOp.primeNextPedalMarkOp p t) s = primeNextPedalMark p t s
      from rfl, primeNextPedalMark_curveIds]
  | closePedalOp p => rfl

theorem applyOps_nextIdVal_le (ops : List ScoreOp) :
    ∀ s : ScoreCtx, s.nextIdVal ≤ (applyOps ops s).nextIdVal := by
  induction ops with
  | nil => intro s; exact le_refl _
  | cons o ops ih =>
    intro s
    have h1 := applyOp_nextIdVal_le o s
    have h2 := ih (applyOp o s)
    exact le_trans h1 h2

theorem applyOps_curveGet (ops : List ScoreOp) (n : Option Nat)
    (h : ∀ a b, ScoreOp.beginCurveOp n a b ∉ ops) :
    ∀ s : ScoreCtx, mapGet (applyOps ops s).curveIds n = mapGet s.curveIds n := by
  induction ops with
  | nil => intro s; rfl
  | cons o ops ih =>
    intro s
    have hhead : ∀ a b, o ≠ ScoreOp.beginCurveOp n a b := by
      intro a b he
      exact h a b (he ▸ List.mem_cons_self o ops)
    have htail : ∀ a b, ScoreOp.beginCurveOp n a b ∉ ops := by
      intro a b hin
      exact h a b (List.mem_cons_of_mem o hin)
    have h1 := applyOp_curveGet o s n hhead
    have h2 := ih htail (applyOp o s)
    exact h2.trans h1

/-- C7: after beginCurve with number n returns id A, every continueCurve
call for n across arbitrary interleaved non-beginCurve(n) operations
returns A until a later beginCurve with the same number n overwrites the
binding with a fresh id B, which is distinct from A because the id
provider only moves forward; from then on continueCurve(n) returns B
(last-writer-wins). -/
theorem curve_id_lifecycle (s : ScoreCtx) (n : Option Nat) (pl1 op1 pl2 op2 : String)
    (ops ops2 : List ScoreOp)
    (h1 : ∀ a b, ScoreOp.beginCurveOp n a b ∉ ops)
    (h2 : ∀ a b, ScoreOp.beginCurveOp n a b ∉ ops2) :
    continueCurve n (applyOps ops (beginCurve n pl1 op1 s).2)
        = some (beginCurve n pl1 op1 s).1
    ∧ (beginCurve n pl2 op2 (applyOps ops (beginCurve n pl1 op1 s).2)).1
        ≠ (beginCurve n pl1 op1 s).1
    ∧ continueCurve n (beginCurve n pl2 op2 (applyOps ops (beginCurve n pl1 op1 s).2)).2
        = some (beginCurve n pl2 op2 (applyOps ops (beginCurve n pl1 op1 s).2)).1
    ∧ continueCurve n (applyOps ops2
          (beginCurve n pl2 op2 (applyOps ops (beginCurve n pl1 op1 s).2)).2)
        = some (beginCurve n pl2 op2 (applyOps ops (beginCurve n pl1 op1 s).2)).1 := by
  have hA : (beginCurve n pl1 op1 s).1 = s.nextIdVal := rfl
  have hA2 : (beginCurve n pl1 op1 s).2.curveIds = mapSet s.curveIds n s.nextIdVal := rfl
  have hA3 : (beginCurve n pl1 op1 s).2.nextIdVal = s.nextIdVal + 1 := rfl
  have hfirst : continueCurve n (applyOps ops (beginCurve n pl1 op1 s).2)
      = some (beginCurve n pl1 op1 s).1 := by
    unfold continueCurve
    rw [applyOps_curveGet ops n h1, hA2, hA, mapGet_mapSet_self]
  have hBval : (beginCurve n pl2 op2 (applyOps ops (beginCurve n pl1 op1 s).2)).1
      = (applyOps ops (beginCurve n pl1 op1 s).2).nextIdVal := rfl
  have hmono := applyOps_nextIdVal_le ops (beginCurve n pl1 op1 s).2
  have hBA : (beginCurve n pl2 op2 (applyOps ops (beginCurve n pl1 op1 s).2)).1
      ≠ (beginCurve n pl1 op1 s).1 := by
    rw [hBval, hA]
    rw [hA3] at hmono
    omega
  have hthird : continueCurve n
      (beginCurve n pl2 op2 (applyOps ops (beginCurve n pl1 op1 s).2)).2
      = some (beginCurve n pl2 op2 (applyOps ops (beginCurve n pl1 op1 s).2)).1 := by
    unfold continueCurve
    rw [show (beginCurve n pl2 op2 (applyOps ops (beginCurve n pl1 op1 s).2)).2.curveIds
        = mapSet (applyOps ops (beginCurve n pl1 op1 s).2).curveIds n
            (applyOps ops (beginCurve n pl1 op1 s).2).nextIdVal from rfl,
      mapGet_mapSet_self, hBval]
  have hfourth : continueCurve n (applyOps ops2
      (beginCurve n pl2 op2 (applyOps ops (beginCurve n pl1 op1 s).2)).2)
      = some (beginCurve n pl2 op2 (applyOps ops (beginCurve n pl1 op1 s).2)).1 := by
    unfold continueCurve
    rw [applyOps_curveGet ops2 n h2]
    exact hthird
  exact ⟨hfirst, hBA, hthird, hfourth⟩

theorem curve_id_lifecycle_witness :
    (∀ a b, ScoreOp.beginCurveOp (some 3) a b ∉ [ScoreOp.decMultiRests])
    ∧ (∀ a b, ScoreOp.beginCurveOp (some 3) a b ∉ ([] : List ScoreOp))
    ∧ (continueCurve (some 3) (applyOps [ScoreOp.decMultiRests]
          (beginCurve (some 3) "above" "up" emptyScoreCtx).2)
        = some (beginCurve (some 3) "above" "up" emptyScoreCtx).1
      ∧ (beginCurve (some 3) "below" "down" (applyOps [ScoreOp.decMultiRests]
          (beginCurve (some 3) "above" "up" emptyScoreCtx).2)).1
        ≠ (beginCurve (some 3) "above" "up" emptyScoreCtx).1
      ∧ continueCurve (some 3) (beginCurve (some 3) "below" "down"
          (applyOps [ScoreOp.decMultiRests]
            (beginCurve (some 3) "above" "up" emptyScoreCtx).2)).2
        = some (beginCurve (some 3) "below" "down" (applyOps [ScoreOp.decMultiRests]
            (beginCurve (some 3) "above" "up" emptyScoreCtx).2)).1
      ∧ continueCurve (some 3) (applyOps [] (beginCurve (some 3) "below" "down"
          (applyOps [ScoreOp.decMultiRests]
            (beginCurve (some 3) "above" "up" emptyScoreCtx).2)).2)
        = some (beginCurve (some 3) "below" "down" (applyOps [ScoreOp.decMultiRests]
            (beginCurve (some 3) "above" "up" emptyScoreCtx).2)).1) := by
  have hops : ∀ a b, ScoreOp.beginCurveOp (some 3) a b ∉ [ScoreOp.decMultiRests] := by
    intro a b hin
    rw [List.mem_singleton] at hin
    exact ScoreOp.noConfusion hin
  have hops2 : ∀ a b, ScoreOp.beginCurveOp (some 3) a b ∉ ([] : List ScoreOp) := by
    intro a b hin
    exact (List.not_mem_nil _) hin
  exact ⟨hops, hops2,
    curve_id_lifecycle emptyScoreCtx (some 3) "above" "up" "below" "down"
      [ScoreOp.decMultiRests] [] hops hops2⟩

end Vexml
